import Mathlib

/-!
Shallow embedding of `scripts/train.py` (motion autoencoder training
pipeline) and proofs of the spec's claims about it.

Floating-point values are modelled as exact rationals; `np.sqrt` is
modelled by a computable nonnegative rational approximation `sqrtQ`
(the only property of the machine square root the claims depend on is
that it returns a nonnegative value).  Where a claim concerns NaN
propagation, floats are modelled by `FVal`, rationals extended with a
NaN element that absorbs arithmetic.
-/

namespace VirtualPortal

/-- Model of `np.sqrt` on rationals: a computable nonnegative approximation
(floor of the square root of `num * den`, divided by `den`). -/
def sqrtQ (q : ℚ) : ℚ :=
  if q ≤ 0 then 0 else (Nat.sqrt (q.num.toNat * q.den) : ℚ) / (q.den : ℚ)

theorem sqrtQ_nonneg (q : ℚ) : 0 ≤ sqrtQ q := by
  unfold sqrtQ
  split
  · exact le_refl 0
  · positivity

/-- The `1e-6` epsilon added to the standard deviation in
`MotionDataset.__init__`. -/
def npEps : ℚ := 1 / 1000000

/-- `MotionData`: one named motion clip.  `frames` is the
`(num_frames, num_bones, 7)` array, modelled as nested lists. -/
structure MotionData where
  name : String
  frames : List (List (List ℚ))
  bone_names : List String
  framerate : ℚ := 30
deriving DecidableEq

/-- `MotionData.num_frames`. -/
def MotionData.num_frames (m : MotionData) : ℕ := m.frames.length

/-- Per-record bone count: the bone dimension of the frames array. -/
def MotionData.numBones (m : MotionData) : ℕ := (m.frames.headD []).length

/-- Elementwise subtraction of feature vectors (`x - mean`). -/
def vsub (x m : List ℚ) : List ℚ := List.zipWith (· - ·) x m

/-- Elementwise division of feature vectors (`x / std`). -/
def vdiv (x s : List ℚ) : List ℚ := List.zipWith (· / ·) x s

/-- Elementwise multiplication of feature vectors (`x * std`). -/
def vmul (x s : List ℚ) : List ℚ := List.zipWith (· * ·) x s

/-- Elementwise addition of feature vectors (`x + mean`). -/
def vadd (x m : List ℚ) : List ℚ := List.zipWith (· + ·) x m

/-- The flattening loop of `MotionDataset.__init__`: every frame of every
motion, flattened (`frame.flatten()` = concatenation of the per-bone
7-vectors), in motion order then frame order. -/
def rawFrames (motions : List MotionData) : List (List ℚ) :=
  motions.flatMap (fun m => m.frames.map List.flatten)

/-- The parallel `motion_indices` list built by the same loop. -/
def motionIndices (motions : List MotionData) : List ℕ :=
  motions.enum.flatMap (fun p => p.2.frames.map (fun _ => p.1))

/-- `np.array(frame_list)` succeeds only on a homogeneous list of rows;
a ragged list raises `ValueError` (inhomogeneous shape). -/
def homogeneous (rows : List (List ℚ)) : Bool :=
  rows.all (fun r => r.length = (rows.headD []).length)

/-- Mean of a list of rationals (`np.mean` along one column). -/
def qMean (l : List ℚ) : ℚ := l.sum / l.length

/-- Column `j` of a row-major matrix. -/
def colVals (rows : List (List ℚ)) (j : ℕ) : List ℚ :=
  rows.map (fun r => r.getD j 0)

/-- `np.mean(frames, axis=0)`: per-feature mean vector. -/
def meanVec (rows : List (List ℚ)) (D : ℕ) : List ℚ :=
  (List.range D).map (fun j => qMean (colVals rows j))

/-- Population variance of column `j` (what `np.std` squares). -/
def varCol (rows : List (List ℚ)) (j : ℕ) : ℚ :=
  qMean ((colVals rows j).map (fun x => (x - qMean (colVals rows j)) ^ 2))

/-- `np.std(frames, axis=0) + 1e-6`, the stored `self.std`. -/
def stdVec (rows : List (List ℚ)) (D : ℕ) : List ℚ :=
  (List.range D).map (fun j => sqrtQ (varCol rows j) + npEps)

/-- The construction-time normalization `(x - mean) / std`
(`self.std` already includes the epsilon). -/
def normalizeVec (x mean std : List ℚ) : List ℚ :=
  vdiv (vsub x mean) std

/-- `MotionDataset` after `__init__`: flattened (possibly normalized)
frames, provenance indices, and the normalization statistics. -/
structure MotionDataset where
  frames : List (List ℚ)
  motion_indices : List ℕ
  normalize : Bool
  mean : List ℚ
  std : List ℚ
deriving DecidableEq

/-- `MotionDataset.__init__`: flatten all frames of all motions, stack
them (raising on inhomogeneous rows, as `np.array` does), and when
`normalize` is set compute `mean`, `std = np.std + 1e-6` and replace the
frames by their normalized versions. -/
def mkMotionDataset (motions : List MotionData) (normalize : Bool) :
    Except String MotionDataset :=
  let raw := rawFrames motions
  if homogeneous raw then
    let D := (raw.headD []).length
    if normalize then
      let m := meanVec raw D
      let s := stdVec raw D
      Except.ok ⟨raw.map (fun x => normalizeVec x m s), motionIndices motions, true, m, s⟩
    else
      Except.ok ⟨raw, motionIndices motions, false, [], []⟩
  else
    Except.error "ValueError: setting an array element with a sequence (inhomogeneous shape)"

/-- `MotionDataset.denormalize`: `frames * std + mean` when the dataset
was normalized, identity otherwise. -/
def MotionDataset.denormalize (ds : MotionDataset) (f : List ℚ) : List ℚ :=
  if ds.normalize then vadd (vmul f ds.std) ds.mean else f

/-- `len(dataset)`. -/
def MotionDataset.len (ds : MotionDataset) : ℕ := ds.frames.length

theorem roundtrip_pointwise (x m s : List ℚ)
    (hxm : x.length = m.length) (hms : m.length = s.length)
    (hs : ∀ v ∈ s, v ≠ 0) :
    vadd (vmul (normalizeVec x m s) s) m = x := by
  induction x generalizing m s with
  | nil =>
    cases m with
    | nil => cases s <;> rfl
    | cons _ _ => simp at hxm
  | cons a x ih =>
    cases m with
    | nil => simp at hxm
    | cons b m =>
      cases s with
      | nil => simp at hms
      | cons c s =>
        have hc : c ≠ 0 := hs c (by simp)
        have hrest : ∀ v ∈ s, v ≠ 0 := fun v hv => hs v (by simp [hv])
        have hxm' : x.length = m.length := by simpa using hxm
        have hms' : m.length = s.length := by simpa using hms
        simp only [normalizeVec, vsub, vdiv, vmul, vadd, List.zipWith]
        have h1 : (a - b) / c * c + b = a := by field_simp
        rw [h1]
        exact congrArg (List.cons a) (ih m s hxm' hms' hrest)

theorem stdVec_mem_pos (rows : List (List ℚ)) (D : ℕ) :
    ∀ v ∈ stdVec rows D, 0 < v := by
  intro v hv
  simp only [stdVec, List.mem_map, List.mem_range] at hv
  obtain ⟨j, _, rfl⟩ := hv
  have := sqrtQ_nonneg (varCol rows j)
  unfold npEps
  linarith

theorem length_meanVec (rows : List (List ℚ)) (D : ℕ) :
    (meanVec rows D).length = D := by simp [meanVec]

theorem length_stdVec (rows : List (List ℚ)) (D : ℕ) :
    (stdVec rows D).length = D := by simp [stdVec]

theorem homogeneous_length {rows : List (List ℚ)} (h : homogeneous rows = true)
    {r : List ℚ} (hr : r ∈ rows) : r.length = (rows.headD []).length := by
  have := (List.all_eq_true.mp h) r hr
  exact of_decide_eq_true this

/-- C1: for a dataset built with `normalize=True` from motions whose
flattened frames stack homogeneously, denormalizing the construction-time
normalized frame at any index returns exactly the original raw frame
(the roundtrip is exact in the rational model of float arithmetic). -/
theorem C1_denormalize_roundtrip (motions : List MotionData) (i : ℕ)
    (hhom : homogeneous (rawFrames motions) = true)
    (hi : i < (rawFrames motions).length) :
    ∀ ds : MotionDataset, mkMotionDataset motions true = Except.ok ds →
      ds.denormalize (ds.frames.getD i []) = (rawFrames motions).getD i [] := by
  intro ds h
  set raw := rawFrames motions with hraw
  set D := (raw.headD []).length with hD
  simp only [mkMotionDataset, hhom, if_true, ← hraw, ← hD] at h
  obtain rfl : ds = ⟨raw.map (fun x => normalizeVec x (meanVec raw D) (stdVec raw D)),
      motionIndices motions, true, meanVec raw D, stdVec raw D⟩ := by
    exact (Except.ok.injEq _ _).mp h.symm
  have hmaplen : i < (raw.map (fun x => normalizeVec x (meanVec raw D) (stdVec raw D))).length := by
    simpa using hi
  rw [MotionDataset.denormalize]
  simp only [if_true]
  rw [List.getD_eq_getElem _ _ hmaplen, List.getD_eq_getElem _ _ hi, List.getElem_map]
  exact roundtrip_pointwise (raw[i]) (meanVec raw D) (stdVec raw D)
    (by rw [length_meanVec]; exact homogeneous_length hhom (raw.getElem_mem hi))
    (by rw [length_meanVec, length_stdVec])
    (fun v hv => ne_of_gt (stdVec_mem_pos raw D v hv))

/-- A tiny concrete motion used to instantiate theorems: one bone,
two frames of 7 components each. -/
def sampleMotion : MotionData :=
  ⟨"wave", [[[1, 2, 3, 4, 5, 6, 7]], [[2, 3, 4, 5, 6, 7, 8]]], ["Armature.Spine"], 30⟩

theorem flatten_length_of_bones (fr : List (List ℚ))
    (h : ∀ bone ∈ fr, bone.length = 7) :
    (List.flatten fr).length = fr.length * 7 := by
  induction fr with
  | nil => rfl
  | cons b fr ih =>
    have hb : b.length = 7 := h b (by simp)
    have hr : ∀ bone ∈ fr, bone.length = 7 := fun x hx => h x (by simp [hx])
    simp [List.length_flatten] at ih ⊢
    rw [hb, ih hr]
    ring

theorem mem_rawFrames {motions : List MotionData} {m : MotionData} {fr : List (List ℚ)}
    (hm : m ∈ motions) (hf : fr ∈ m.frames) : List.flatten fr ∈ rawFrames motions := by
  simp only [rawFrames, List.mem_flatMap, List.mem_map]
  exact ⟨m, hm, fr, hf, rfl⟩

theorem homogeneous_false_of_two {rows : List (List ℚ)} {x1 x2 : List ℚ}
    (h1 : x1 ∈ rows) (h2 : x2 ∈ rows) (hne : x1.length ≠ x2.length) :
    homogeneous rows = false := by
  by_contra hcon
  have htrue : homogeneous rows = true := by
    cases hh : homogeneous rows
    · exact absurd hh hcon
    · rfl
  exact hne ((homogeneous_length htrue h1).trans (homogeneous_length htrue h2).symm)

/-- C7: in a well-formed record (every frame has the record's bone count,
every bone 7 components) each flattened feature vector has length exactly
`num_bones * 7`; and constructing a dataset from records whose bone counts
differ (both contributing at least one frame) raises a `ValueError`
rather than producing a dataset. -/
theorem C7_feature_dim_and_mismatch_error (motions : List MotionData)
    (hwf : ∀ m ∈ motions, ∀ fr ∈ m.frames,
        fr.length = m.numBones ∧ ∀ bone ∈ fr, bone.length = 7) :
    (∀ m ∈ motions, ∀ fr ∈ m.frames, (List.flatten fr).length = m.numBones * 7) ∧
    (∀ m1 ∈ motions, ∀ m2 ∈ motions, m1.frames ≠ [] → m2.frames ≠ [] →
      m1.numBones ≠ m2.numBones →
      ∀ b : Bool, ∃ e, mkMotionDataset motions b = Except.error e) := by
  have hlen : ∀ m ∈ motions, ∀ fr ∈ m.frames,
      (List.flatten fr).length = m.numBones * 7 := by
    intro m hm fr hf
    obtain ⟨hcount, hbones⟩ := hwf m hm fr hf
    rw [flatten_length_of_bones fr hbones, hcount]
  refine ⟨hlen, ?_⟩
  intro m1 hm1 m2 hm2 hne1 hne2 hbneq b
  obtain ⟨f1, hf1⟩ := List.exists_mem_of_ne_nil _ hne1
  obtain ⟨f2, hf2⟩ := List.exists_mem_of_ne_nil _ hne2
  have hx1 := mem_rawFrames hm1 hf1
  have hx2 := mem_rawFrames hm2 hf2
  have hll : (List.flatten f1).length ≠ (List.flatten f2).length := by
    rw [hlen m1 hm1 f1 hf1, hlen m2 hm2 f2 hf2]
    omega
  have hfalse : homogeneous (rawFrames motions) = false :=
    homogeneous_false_of_two hx1 hx2 hll
  refine ⟨"ValueError: setting an array element with a sequence (inhomogeneous shape)", ?_⟩
  simp [mkMotionDataset, hfalse]

/-- A second concrete motion with a different bone count (one frame,
two bones). -/
def sampleMotionTwoBones : MotionData :=
  ⟨"spin", [[[0, 0, 0, 0, 0, 0, 1], [0, 0, 0, 0, 0, 0, 1]]], ["a", "b"], 30⟩

theorem C7_feature_dim_and_mismatch_error_witness :
    (∀ m ∈ [sampleMotion, sampleMotionTwoBones], ∀ fr ∈ m.frames,
        fr.length = m.numBones ∧ ∀ bone ∈ fr, bone.length = 7) ∧
    ((∀ m ∈ [sampleMotion, sampleMotionTwoBones], ∀ fr ∈ m.frames,
        (List.flatten fr).length = m.numBones * 7) ∧
     (∀ m1 ∈ [sampleMotion, sampleMotionTwoBones],
        ∀ m2 ∈ [sampleMotion, sampleMotionTwoBones],
        m1.frames ≠ [] → m2.frames ≠ [] → m1.numBones ≠ m2.numBones →
        ∀ b : Bool, ∃ e,
          mkMotionDataset [sampleMotion, sampleMotionTwoBones] b = Except.error e)) :=
  ⟨by decide,
   C7_feature_dim_and_mismatch_error [sampleMotion, sampleMotionTwoBones] (by decide)⟩

theorem C1_denormalize_roundtrip_witness :
    homogeneous (rawFrames [sampleMotion]) = true ∧
    0 < (rawFrames [sampleMotion]).length ∧
    (∀ ds : MotionDataset, mkMotionDataset [sampleMotion] true = Except.ok ds →
      ds.denormalize (ds.frames.getD 0 []) = (rawFrames [sampleMotion]).getD 0 []) :=
  ⟨by decide, by decide, C1_denormalize_roundtrip [sampleMotion] 0 (by decide) (by decide)⟩

/-- Kind of a `_save_checkpoint` call site in `MotionTrainer.train`:
the best-model branch or the periodic branch. -/
inductive WriteKind
  | best
  | periodic
deriving DecidableEq

/-- One `_save_checkpoint` call: call site, epoch index, recorded loss
and target path. -/
structure CkWrite where
  kind : WriteKind
  epoch : ℕ
  loss : ℚ
  path : String
deriving DecidableEq

/-- `save_dir / f"model_epoch_{epoch+1}.pt"`. -/
def ckPath (dir : String) (epoch : ℕ) : String :=
  dir ++ "/model_epoch_" ++ toString (epoch + 1) ++ ".pt"

/-- Inputs of `MotionTrainer.train` that the checkpoint/best-model claims
depend on: epoch count, checkpoint interval, optional save directory and
the per-epoch train/validation losses (the numeric outcomes of
`_train_epoch` / `_validate`, abstracted as sequences because the torch
numerics are outside the model). -/
structure LoopCfg where
  epochs : ℕ
  checkpoint_interval : ℕ
  save_dir : Option String
  trainLoss : ℕ → ℚ
  valLoss : Option (ℕ → ℚ)

/-- Trainer state across epochs: `best_loss` (initially `float('inf')`,
modelled by `⊤`), the loss histories, and the checkpoint writes so far
in program order. -/
structure TrainerState where
  best_loss : WithTop ℚ
  train_hist : List ℚ
  val_hist : List ℚ
  writes : List CkWrite

/-- State at `MotionTrainer.__init__`. -/
def initState : TrainerState := ⟨⊤, [], [], []⟩

/-- The checkpoint writes issued during one epoch, in program order:
first the best-model write (validation in use, validation loss strictly
below the incoming `best_loss`, save dir configured, recording the
validation loss), then the periodic write (`(epoch+1) %
checkpoint_interval == 0` and save dir configured, recording the train
loss). -/
def epochWrites (cfg : LoopCfg) (best : WithTop ℚ) (e : ℕ) : List CkWrite :=
  (match cfg.valLoss, cfg.save_dir with
   | some f, some d =>
     if (f e : WithTop ℚ) < best then [⟨.best, e, f e, ckPath d e⟩] else []
   | _, _ => []) ++
  (match cfg.save_dir with
   | some d =>
     if (e + 1) % cfg.checkpoint_interval = 0 then
       [⟨.periodic, e, cfg.trainLoss e, ckPath d e⟩]
     else []
   | none => [])

/-- One iteration of the epoch loop in `MotionTrainer.train`. -/
def epochStep (cfg : LoopCfg) (st : TrainerState) (e : ℕ) : TrainerState where
  best_loss :=
    match cfg.valLoss with
    | some f => if (f e : WithTop ℚ) < st.best_loss then (f e : WithTop ℚ) else st.best_loss
    | none => st.best_loss
  train_hist := st.train_hist ++ [cfg.trainLoss e]
  val_hist :=
    match cfg.valLoss with
    | some f => st.val_hist ++ [f e]
    | none => st.val_hist
  writes := st.writes ++ epochWrites cfg st.best_loss e

/-- The trainer state after the first `k` epochs of the run. -/
def runN (cfg : LoopCfg) (k : ℕ) : TrainerState :=
  (List.range k).foldl (epochStep cfg) initState

/-- `MotionTrainer.train`: the full run over `cfg.epochs` epochs. -/
def runTrainer (cfg : LoopCfg) : TrainerState := runN cfg cfg.epochs

theorem runN_succ (cfg : LoopCfg) (k : ℕ) :
    runN cfg (k + 1) = epochStep cfg (runN cfg k) k := by
  simp [runN, List.range_succ]

theorem best_runN_succ {cfg : LoopCfg} {f : ℕ → ℚ} (hv : cfg.valLoss = some f) (k : ℕ) :
    (runN cfg (k + 1)).best_loss = min ((runN cfg k).best_loss) (f k : WithTop ℚ) := by
  rw [runN_succ]
  show (match cfg.valLoss with
    | some f => if (f k : WithTop ℚ) < (runN cfg k).best_loss then (f k : WithTop ℚ)
                else (runN cfg k).best_loss
    | none => (runN cfg k).best_loss) = _
  rw [hv]
  dsimp only
  rcases lt_or_ge ((f k : WithTop ℚ)) ((runN cfg k).best_loss) with hlt | hge
  · rw [if_pos hlt]
    exact (min_eq_right hlt.le).symm
  · rw [if_neg (not_lt.mpr hge)]
    exact (min_eq_left hge).symm

theorem best_runN_eq_foldl {cfg : LoopCfg} {f : ℕ → ℚ} (hv : cfg.valLoss = some f) (k : ℕ) :
    (runN cfg k).best_loss =
      ((List.range k).map (fun i => ((f i : ℚ) : WithTop ℚ))).foldl min ⊤ := by
  induction k with
  | zero => rfl
  | succ k ih =>
    rw [best_runN_succ hv, ih, List.range_succ]
    simp

theorem lt_foldl_min {a b : WithTop ℚ} {l : List (WithTop ℚ)} :
    a < l.foldl min b ↔ a < b ∧ ∀ x ∈ l, a < x := by
  induction l generalizing b with
  | nil => simp
  | cons x l ih =>
    rw [List.foldl_cons, ih, lt_min_iff]
    simp only [List.mem_cons]
    constructor
    · rintro ⟨⟨hb, hx⟩, hl⟩
      exact ⟨hb, fun y hy => hy.elim (fun h => h ▸ hx) (hl y)⟩
    · rintro ⟨hb, hl⟩
      exact ⟨⟨hb, hl x (Or.inl rfl)⟩, fun y hy => hl y (Or.inr hy)⟩

theorem best_lt_iff {cfg : LoopCfg} {f : ℕ → ℚ} (hv : cfg.valLoss = some f) (e : ℕ) :
    ((f e : WithTop ℚ) < (runN cfg e).best_loss) ↔ ∀ e' < e, f e < f e' := by
  rw [best_runN_eq_foldl hv, lt_foldl_min]
  constructor
  · rintro ⟨-, hl⟩ e' he'
    have := hl _ (List.mem_map_of_mem _ (List.mem_range.mpr he'))
    exact_mod_cast this
  · intro hl
    refine ⟨WithTop.coe_lt_top _, ?_⟩
    intro x hx
    obtain ⟨i, hi, rfl⟩ := List.mem_map.mp hx
    exact_mod_cast hl i (List.mem_range.mp hi)

theorem writes_runN (cfg : LoopCfg) (k : ℕ) :
    (runN cfg k).writes =
      (List.range k).flatMap (fun e => epochWrites cfg ((runN cfg e).best_loss) e) := by
  induction k with
  | zero => rfl
  | succ k ih =>
    rw [runN_succ, List.range_succ]
    show (runN cfg k).writes ++ epochWrites cfg ((runN cfg k).best_loss) k = _
    simp [ih]

theorem epoch_of_mem_epochWrites {cfg : LoopCfg} {b : WithTop ℚ} {e : ℕ} {w : CkWrite}
    (hw : w ∈ epochWrites cfg b e) : w.epoch = e := by
  unfold epochWrites at hw
  rcases List.mem_append.mp hw with h | h
  · rcases hfv : cfg.valLoss with _ | f <;> rcases hsd : cfg.save_dir with _ | d <;>
      rw [hfv, hsd] at h <;> simp at h
    rw [h.2]
  · rcases hsd : cfg.save_dir with _ | d <;> rw [hsd] at h <;> simp at h
    rw [h.2]

theorem mem_writes_iff {cfg : LoopCfg} {k : ℕ} {w : CkWrite} :
    w ∈ (runN cfg k).writes ↔
      ∃ e < k, w ∈ epochWrites cfg ((runN cfg e).best_loss) e := by
  rw [writes_runN]
  simp [List.mem_flatMap, List.mem_range]

theorem mem_epochWrites_periodic {cfg : LoopCfg} {b : WithTop ℚ} {e : ℕ} {w : CkWrite}
    {d : String} (hd : cfg.save_dir = some d) :
    (w ∈ epochWrites cfg b e ∧ w.kind = WriteKind.periodic) ↔
      ((e + 1) % cfg.checkpoint_interval = 0 ∧
        w = ⟨WriteKind.periodic, e, cfg.trainLoss e, ckPath d e⟩) := by
  unfold epochWrites
  rw [hd]
  constructor
  · rintro ⟨hw, hk⟩
    rcases List.mem_append.mp hw with h | h
    · rcases hfv : cfg.valLoss with _ | f <;> rw [hfv] at h <;> simp at h
      rw [h.2] at hk
      exact absurd hk (by simp)
    · simp at h
      exact h
  · rintro ⟨hc, rfl⟩
    refine ⟨List.mem_append.mpr (Or.inr ?_), rfl⟩
    simp [hc]

theorem mem_epochWrites_best {cfg : LoopCfg} {b : WithTop ℚ} {e : ℕ} {w : CkWrite}
    {d : String} {f : ℕ → ℚ} (hd : cfg.save_dir = some d) (hv : cfg.valLoss = some f) :
    (w ∈ epochWrites cfg b e ∧ w.kind = WriteKind.best) ↔
      ((f e : WithTop ℚ) < b ∧ w = ⟨WriteKind.best, e, f e, ckPath d e⟩) := by
  unfold epochWrites
  rw [hd, hv]
  constructor
  · rintro ⟨hw, hk⟩
    rcases List.mem_append.mp hw with h | h
    · simp at h
      exact h
    · simp at h
      rw [h.2] at hk
      exact absurd hk (by simp)
  · rintro ⟨hc, rfl⟩
    refine ⟨List.mem_append.mpr (Or.inl ?_), rfl⟩
    simp [hc]

/-- C4: when a save directory is configured (which `main` always does)
and the interval is positive (it is always the default 10), a periodic
checkpoint is written at exactly those epochs whose 1-based index is a
multiple of the interval — with any validation setting and any loss
trend — and every periodic write records the current epoch's training
loss (at the epoch's checkpoint path). -/
theorem C4_periodic_checkpoint_schedule (cfg : LoopCfg) (d : String)
    (hd : cfg.save_dir = some d) (hN : 0 < cfg.checkpoint_interval) :
    (∀ e : ℕ,
      (∃ w ∈ (runTrainer cfg).writes, w.kind = WriteKind.periodic ∧ w.epoch = e) ↔
        (e < cfg.epochs ∧ (e + 1) % cfg.checkpoint_interval = 0)) ∧
    (∀ w ∈ (runTrainer cfg).writes, w.kind = WriteKind.periodic →
      w.loss = cfg.trainLoss w.epoch ∧ w.path = ckPath d w.epoch) := by
  have hNtriv : 0 < cfg.checkpoint_interval := hN
  constructor
  · intro e
    constructor
    · rintro ⟨w, hw, hk, hep⟩
      obtain ⟨e', he', hmem⟩ := mem_writes_iff.mp hw
      have heq : w.epoch = e' := epoch_of_mem_epochWrites hmem
      obtain ⟨hc, -⟩ := (mem_epochWrites_periodic hd).mp ⟨hmem, hk⟩
      rw [hep] at heq
      subst heq
      exact ⟨he', hc⟩
    · rintro ⟨he, hc⟩
      refine ⟨⟨WriteKind.periodic, e, cfg.trainLoss e, ckPath d e⟩, ?_, rfl, rfl⟩
      exact mem_writes_iff.mpr
        ⟨e, he, ((mem_epochWrites_periodic hd).mpr ⟨hc, rfl⟩).1⟩
  · intro w hw hk
    obtain ⟨e', _, hmem⟩ := mem_writes_iff.mp hw
    obtain ⟨-, rfl⟩ := (mem_epochWrites_periodic hd).mp ⟨hmem, hk⟩
    exact ⟨rfl, rfl⟩

theorem C4_periodic_checkpoint_schedule_witness :
    ((⟨3, 2, some "models", fun e => (e : ℚ), none⟩ : LoopCfg).save_dir = some "models") ∧
    (0 < (⟨3, 2, some "models", fun e => (e : ℚ), none⟩ : LoopCfg).checkpoint_interval) ∧
    ((∀ e : ℕ,
      (∃ w ∈ (runTrainer ⟨3, 2, some "models", fun e => (e : ℚ), none⟩).writes,
        w.kind = WriteKind.periodic ∧ w.epoch = e) ↔
        (e < (3 : ℕ) ∧ (e + 1) % 2 = 0)) ∧
     (∀ w ∈ (runTrainer ⟨3, 2, some "models", fun e => (e : ℚ), none⟩).writes,
        w.kind = WriteKind.periodic →
        w.loss = (w.epoch : ℚ) ∧ w.path = ckPath "models" w.epoch)) :=
  ⟨rfl, by decide,
   C4_periodic_checkpoint_schedule ⟨3, 2, some "models", fun e => (e : ℚ), none⟩
     "models" rfl (by decide)⟩

/-- C5: with a validation set and a configured save location, a
best-model checkpoint is written at an epoch of the run exactly when
that epoch's validation loss is strictly smaller than every previous
epoch's validation loss (the code compares against `best_loss`, the
running minimum), and it records that validation loss at the epoch's
checkpoint path; the write is issued inside the epoch itself, for any
periodic interval. -/
theorem C5_best_checkpoint_iff (cfg : LoopCfg) (d : String) (f : ℕ → ℚ)
    (hd : cfg.save_dir = some d) (hv : cfg.valLoss = some f) :
    (∀ e : ℕ,
      (∃ w ∈ (runTrainer cfg).writes, w.kind = WriteKind.best ∧ w.epoch = e) ↔
        (e < cfg.epochs ∧ ∀ e' < e, f e < f e')) ∧
    (∀ w ∈ (runTrainer cfg).writes, w.kind = WriteKind.best →
      w.loss = f w.epoch ∧ w.path = ckPath d w.epoch) := by
  constructor
  · intro e
    constructor
    · rintro ⟨w, hw, hk, hep⟩
      obtain ⟨e', he', hmem⟩ := mem_writes_iff.mp hw
      have heq : w.epoch = e' := epoch_of_mem_epochWrites hmem
      obtain ⟨hlt, -⟩ := (mem_epochWrites_best hd hv).mp ⟨hmem, hk⟩
      rw [hep] at heq
      subst heq
      exact ⟨he', (best_lt_iff hv e).mp hlt⟩
    · rintro ⟨he, hc⟩
      refine ⟨⟨WriteKind.best, e, f e, ckPath d e⟩, ?_, rfl, rfl⟩
      exact mem_writes_iff.mpr
        ⟨e, he, ((mem_epochWrites_best hd hv).mpr ⟨(best_lt_iff hv e).mpr hc, rfl⟩).1⟩
  · intro w hw hk
    obtain ⟨e', _, hmem⟩ := mem_writes_iff.mp hw
    obtain ⟨-, rfl⟩ := (mem_epochWrites_best hd hv).mp ⟨hmem, hk⟩
    exact ⟨rfl, rfl⟩

theorem C5_best_checkpoint_iff_witness :
    ((⟨2, 10, some "models", fun _ => (0 : ℚ), some (fun e : ℕ => (e : ℚ))⟩ : LoopCfg).save_dir
        = some "models") ∧
    ((⟨2, 10, some "models", fun _ => (0 : ℚ), some (fun e : ℕ => (e : ℚ))⟩ : LoopCfg).valLoss
        = some (fun e : ℕ => (e : ℚ))) ∧
    ((∀ e : ℕ,
      (∃ w ∈ (runTrainer ⟨2, 10, some "models", fun _ => (0 : ℚ),
          some (fun e : ℕ => (e : ℚ))⟩).writes,
        w.kind = WriteKind.best ∧ w.epoch = e) ↔
        (e < (2 : ℕ) ∧ ∀ e' < e, (e : ℚ) < (e' : ℚ))) ∧
     (∀ w ∈ (runTrainer ⟨2, 10, some "models", fun _ => (0 : ℚ),
          some (fun e : ℕ => (e : ℚ))⟩).writes,
        w.kind = WriteKind.best →
        w.loss = (w.epoch : ℚ) ∧ w.path = ckPath "models" w.epoch)) :=
  ⟨rfl, rfl,
   C5_best_checkpoint_iff
     ⟨2, 10, some "models", fun _ => (0 : ℚ), some (fun e : ℕ => (e : ℚ))⟩
     "models" (fun e => (e : ℚ)) rfl rfl⟩

/-- C6: with a validation set supplied, the trainer's `best_loss` is
monotonically non-increasing from one epoch of the run to the next
(`⊤` models the initial `float('inf')`). -/
theorem C6_best_loss_monotone (cfg : LoopCfg) (f : ℕ → ℚ)
    (hv : cfg.valLoss = some f) (k : ℕ) (_hk : k + 1 ≤ cfg.epochs) :
    (runN cfg (k + 1)).best_loss ≤ (runN cfg k).best_loss := by
  rw [best_runN_succ hv]
  exact min_le_left _ _

theorem C6_best_loss_monotone_witness :
    ((⟨2, 10, none, fun _ => (0 : ℚ), some (fun e : ℕ => (e : ℚ))⟩ : LoopCfg).valLoss
        = some (fun e : ℕ => (e : ℚ))) ∧
    (0 + 1 ≤ (⟨2, 10, none, fun _ => (0 : ℚ), some (fun e : ℕ => (e : ℚ))⟩ : LoopCfg).epochs) ∧
    ((runN ⟨2, 10, none, fun _ => (0 : ℚ), some (fun e : ℕ => (e : ℚ))⟩ (0 + 1)).best_loss ≤
      (runN ⟨2, 10, none, fun _ => (0 : ℚ), some (fun e : ℕ => (e : ℚ))⟩ 0).best_loss) :=
  ⟨rfl, by decide,
   C6_best_loss_monotone ⟨2, 10, none, fun _ => (0 : ℚ), some (fun e : ℕ => (e : ℚ))⟩
     (fun e => (e : ℚ)) rfl 0 (by decide)⟩

theorem epoch_lt_of_mem_writes {cfg : LoopCfg} {k : ℕ} {w : CkWrite}
    (hw : w ∈ (runN cfg k).writes) : w.epoch < k := by
  obtain ⟨e, he, hmem⟩ := mem_writes_iff.mp hw
  rw [epoch_of_mem_epochWrites hmem]
  exact he

theorem filter_epoch_writes (cfg : LoopCfg) {k e : ℕ} (he : e < k) :
    (runN cfg k).writes.filter (fun w => w.epoch == e) =
      epochWrites cfg ((runN cfg e).best_loss) e := by
  induction k with
  | zero => omega
  | succ k ih =>
    have hw : (runN cfg (k + 1)).writes =
        (runN cfg k).writes ++ epochWrites cfg ((runN cfg k).best_loss) k := by
      rw [runN_succ]; rfl
    rw [hw, List.filter_append]
    rcases Nat.lt_or_ge e k with hek | hek
    · rw [ih hek]
      have hnil : (epochWrites cfg ((runN cfg k).best_loss) k).filter
          (fun w => w.epoch == e) = [] := by
        rw [List.filter_eq_nil_iff]
        intro a ha
        have := epoch_of_mem_epochWrites ha
        simp [this]
        omega
      rw [hnil, List.append_nil]
    · have hek' : e = k := by omega
      subst hek'
      have hnil : (runN cfg e).writes.filter (fun w => w.epoch == e) = [] := by
        rw [List.filter_eq_nil_iff]
        intro a ha
        have := epoch_lt_of_mem_writes ha
        simp
        omega
      have hself : (epochWrites cfg ((runN cfg e).best_loss) e).filter
          (fun w => w.epoch == e) = epochWrites cfg ((runN cfg e).best_loss) e := by
        rw [List.filter_eq_self]
        intro a ha
        simp [epoch_of_mem_epochWrites ha]
      rw [hnil, hself, List.nil_append]

/-- C10: at an epoch where both the best-model condition and the
periodic condition hold, the epoch issues exactly two checkpoint writes
— first the best-model write recording the validation loss, then the
periodic write recording the training loss — both to the identical path
`model_epoch_{epoch+1}.pt`, so the last (surviving) write to that file
records the epoch's training loss. -/
theorem C10_best_then_periodic_same_path (cfg : LoopCfg) (d : String) (f : ℕ → ℚ) (e : ℕ)
    (hd : cfg.save_dir = some d) (hv : cfg.valLoss = some f)
    (he : e < cfg.epochs) (hmod : (e + 1) % cfg.checkpoint_interval = 0)
    (hbest : ∀ e' < e, f e < f e') :
    ((runTrainer cfg).writes.filter (fun w => w.epoch == e) =
      [⟨WriteKind.best, e, f e, ckPath d e⟩,
       ⟨WriteKind.periodic, e, cfg.trainLoss e, ckPath d e⟩]) ∧
    (∀ w ∈ (runTrainer cfg).writes.filter (fun w => w.epoch == e), w.path = ckPath d e) ∧
    (((runTrainer cfg).writes.filter (fun w => w.epoch == e)).getLast? =
      some ⟨WriteKind.periodic, e, cfg.trainLoss e, ckPath d e⟩) := by
  have hfe : (runTrainer cfg).writes.filter (fun w => w.epoch == e) =
      epochWrites cfg ((runN cfg e).best_loss) e := filter_epoch_writes cfg he
  have hew : epochWrites cfg ((runN cfg e).best_loss) e =
      [⟨WriteKind.best, e, f e, ckPath d e⟩,
       ⟨WriteKind.periodic, e, cfg.trainLoss e, ckPath d e⟩] := by
    unfold epochWrites
    rw [hd, hv]
    dsimp only
    rw [if_pos ((best_lt_iff hv e).mpr hbest), if_pos hmod]
    rfl
  rw [hfe, hew]
  refine ⟨rfl, ?_, rfl⟩
  intro w hw
  rcases List.mem_cons.mp hw with rfl | hw'
  · rfl
  · rcases List.mem_cons.mp hw' with rfl | hw''
    · rfl
    · exact absurd hw'' (List.not_mem_nil _)

/-- A concrete run configuration where, at epoch 0, both the best-model
condition and the periodic condition fire. -/
def cfgBoth : LoopCfg :=
  ⟨1, 1, some "models", fun _ => (5 : ℚ), some (fun _ : ℕ => (3 : ℚ))⟩

theorem C10_best_then_periodic_same_path_witness :
    (cfgBoth.save_dir = some "models") ∧
    (cfgBoth.valLoss = some (fun _ : ℕ => (3 : ℚ))) ∧
    (0 < cfgBoth.epochs) ∧
    ((0 + 1) % cfgBoth.checkpoint_interval = 0) ∧
    (∀ e' < 0, (3 : ℚ) < (3 : ℚ)) ∧
    (((runTrainer cfgBoth).writes.filter (fun w => w.epoch == 0) =
        [⟨WriteKind.best, 0, (3 : ℚ), ckPath "models" 0⟩,
         ⟨WriteKind.periodic, 0, (5 : ℚ), ckPath "models" 0⟩]) ∧
     (∀ w ∈ (runTrainer cfgBoth).writes.filter (fun w => w.epoch == 0),
        w.path = ckPath "models" 0) ∧
     (((runTrainer cfgBoth).writes.filter (fun w => w.epoch == 0)).getLast? =
        some ⟨WriteKind.periodic, 0, (5 : ℚ), ckPath "models" 0⟩)) :=
  ⟨rfl, rfl, by decide, by decide, fun e' h => absurd h (Nat.not_lt_zero e'),
   C10_best_then_periodic_same_path cfgBoth "models" (fun _ : ℕ => (3 : ℚ)) 0 rfl rfl
     (by decide) (by decide) (fun e' h => absurd h (Nat.not_lt_zero e'))⟩

/-- Model of a Python float for the loss-accumulation claims: NaN or a
finite rational.  A NaN operand makes every arithmetic result NaN; no
arithmetic on floats raises. -/
inductive FVal
  | nan
  | val (q : ℚ)
deriving DecidableEq

/-- Float addition (`total_loss += loss.item()`); NaN absorbs. -/
def FVal.add : FVal → FVal → FVal
  | .val a, .val b => .val (a + b)
  | _, _ => .nan

/-- Float division by the batch count (`total_loss / len(train_loader)`
with a positive length); NaN propagates. -/
def FVal.divNat : FVal → ℕ → FVal
  | .val a, n => .val (a / (n : ℚ))
  | .nan, _ => .nan

/-- The per-batch losses produced by one `_train_epoch` pass: `step`
abstracts one iteration of the batch loop (forward pass, MSE loss,
backward, gradient clip, optimizer step), returning the updated
weight/optimizer state together with that batch's `loss.item()`. -/
def batchLosses {σ α : Type} (step : σ → α → σ × FVal) : σ → List α → List FVal
  | _, [] => []
  | s, b :: bs => (step s b).2 :: batchLosses step (step s b).1 bs

/-- The weight/optimizer state after the batch loop. -/
def runBatches {σ α : Type} (step : σ → α → σ × FVal) : σ → List α → σ
  | s, [] => s
  | s, b :: bs => runBatches step (step s b).1 bs

/-- The `total_loss` accumulation in `_train_epoch` (start at 0, add
every batch loss). -/
def totalLoss {σ α : Type} (step : σ → α → σ × FVal) (s : σ) (batches : List α) : FVal :=
  (batchLosses step s batches).foldl FVal.add (.val 0)

/-- `MotionTrainer._train_epoch`: run the batch loop and return
`total_loss / len(train_loader)`.  The only statement that can raise is
the final division (`ZeroDivisionError` on an empty loader); in
particular no statement checks whether a loss is finite. -/
def trainEpochE {σ α : Type} (step : σ → α → σ × FVal) (s : σ) (batches : List α) :
    Except String (σ × FVal) :=
  if batches.isEmpty then Except.error "ZeroDivisionError: division by zero"
  else Except.ok (runBatches step s batches, (totalLoss step s batches).divNat batches.length)

/-- The epoch loop of `MotionTrainer.train` restricted to loss flow:
run the given number of epochs, appending each epoch's mean loss to
`history['train_loss']` and propagating any exception. -/
def trainLoop {σ α : Type} (step : σ → α → σ × FVal) :
    σ → List FVal → List α → ℕ → Except String (σ × List FVal)
  | s, hist, _, 0 => Except.ok (s, hist)
  | s, hist, batches, n + 1 =>
    match trainEpochE step s batches with
    | .error e => .error e
    | .ok (s', l) => trainLoop step s' (hist ++ [l]) batches n

/-- `MotionTrainer.train` seen through `history['train_loss']`. -/
def trainF {σ α : Type} (step : σ → α → σ × FVal) (s : σ) (batches : List α)
    (epochs : ℕ) : Except String (σ × List FVal) :=
  trainLoop step s [] batches epochs

theorem FVal.add_nan_right (a : FVal) : a.add .nan = .nan := by
  cases a <;> rfl

theorem foldl_add_nan_acc (l : List FVal) : l.foldl FVal.add .nan = .nan := by
  induction l with
  | nil => rfl
  | cons x l ih => rw [List.foldl_cons]; exact ih

theorem foldl_add_of_mem_nan {l : List FVal} (h : FVal.nan ∈ l) (acc : FVal) :
    l.foldl FVal.add acc = .nan := by
  induction l generalizing acc with
  | nil => exact absurd h (List.not_mem_nil _)
  | cons x l ih =>
    rw [List.foldl_cons]
    rcases List.mem_cons.mp h with rfl | hl
    · rw [FVal.add_nan_right]
      exact foldl_add_nan_acc l
    · exact ih hl _

theorem totalLoss_nan {σ α : Type} {step : σ → α → σ × FVal} {s : σ} {batches : List α}
    (h : FVal.nan ∈ batchLosses step s batches) :
    totalLoss step s batches = .nan :=
  foldl_add_of_mem_nan h _

theorem trainLoop_ok {σ α : Type} (step : σ → α → σ × FVal) (batches : List α)
    (hne : batches ≠ []) :
    ∀ (n : ℕ) (s : σ) (hist : List FVal), ∃ s' tail,
      trainLoop step s hist batches n = Except.ok (s', hist ++ tail) ∧ tail.length = n := by
  have hB : batches.isEmpty = false := by
    cases batches with
    | nil => exact absurd rfl hne
    | cons _ _ => rfl
  intro n
  induction n with
  | zero =>
    intro s hist
    exact ⟨s, [], by simp [trainLoop], rfl⟩
  | succ n ih =>
    intro s hist
    obtain ⟨s', tail, heq, hlen⟩ :=
      ih (runBatches step s batches)
        (hist ++ [(totalLoss step s batches).divNat batches.length])
    refine ⟨s', (totalLoss step s batches).divNat batches.length :: tail, ?_, by simp [hlen]⟩
    rw [trainLoop, trainEpochE, hB]
    simpa using heq

/-- C2, as stated, is false of the code: a batch whose loss is NaN does
not make the training run raise.  Concretely, with two batches whose
second loss is NaN, `_train_epoch` runs to completion and a one-epoch
training run returns a history containing the NaN epoch loss instead of
raising. -/
theorem C2_nonfinite_loss_does_not_raise :
    FVal.nan ∈ batchLosses
      (fun (_ : Unit) (b : ℕ) => ((), if b = 0 then FVal.nan else FVal.val 1)) () [1, 0] ∧
    ¬ (∃ e, trainF (fun (_ : Unit) (b : ℕ) => ((), if b = 0 then FVal.nan else FVal.val 1))
        () [1, 0] 1 = Except.error e) ∧
    trainF (fun (_ : Unit) (b : ℕ) => ((), if b = 0 then FVal.nan else FVal.val 1))
        () [1, 0] 1 = Except.ok ((), [FVal.nan]) := by
  have hok : trainF (fun (_ : Unit) (b : ℕ) => ((), if b = 0 then FVal.nan else FVal.val 1))
      () [1, 0] 1 = Except.ok ((), [FVal.nan]) := by rfl
  refine ⟨by decide, ?_, hok⟩
  rintro ⟨e, he⟩
  rw [hok] at he
  exact Except.noConfusion he

/-- C2 amended: a non-finite batch loss is not masked or skipped — it
makes the epoch's accumulated mean loss NaN and flows into the returned
history; the run completes without raising (for nonempty loaders the
only raise in `_train_epoch`, the empty-loader division, cannot fire). -/
theorem C2_nonfinite_loss_propagates {σ α : Type} (step : σ → α → σ × FVal) (s : σ)
    (batches : List α) (epochs : ℕ) (hne : batches ≠ [])
    (hnan : FVal.nan ∈ batchLosses step s batches) :
    (∃ s', trainEpochE step s batches = Except.ok (s', FVal.nan)) ∧
    (∃ s' hist, trainF step s batches (epochs + 1) = Except.ok (s', hist) ∧
      hist.length = epochs + 1 ∧ hist.headD (FVal.val 0) = FVal.nan) := by
  have hB : batches.isEmpty = false := by
    cases batches with
    | nil => exact absurd rfl hne
    | cons _ _ => rfl
  have hnanloss : (totalLoss step s batches).divNat batches.length = FVal.nan := by
    rw [totalLoss_nan hnan]; rfl
  constructor
  · refine ⟨runBatches step s batches, ?_⟩
    rw [trainEpochE, hB]
    simp [hnanloss]
  · obtain ⟨s', tail, heq, hlen⟩ :=
      trainLoop_ok step batches hne epochs (runBatches step s batches) [FVal.nan]
    refine ⟨s', FVal.nan :: tail, ?_, by simp [hlen], rfl⟩
    rw [trainF, trainLoop, trainEpochE, hB]
    simp only [hnanloss] at *
    simpa using heq

theorem C2_nonfinite_loss_propagates_witness :
    ([1, 0] ≠ ([] : List ℕ)) ∧
    (FVal.nan ∈ batchLosses
      (fun (_ : Unit) (b : ℕ) => ((), if b = 0 then FVal.nan else FVal.val 1)) () [1, 0]) ∧
    ((∃ s', trainEpochE
        (fun (_ : Unit) (b : ℕ) => ((), if b = 0 then FVal.nan else FVal.val 1))
        () [1, 0] = Except.ok (s', FVal.nan)) ∧
     (∃ s' hist, trainF
        (fun (_ : Unit) (b : ℕ) => ((), if b = 0 then FVal.nan else FVal.val 1))
        () [1, 0] (0 + 1) = Except.ok (s', hist) ∧
        hist.length = 0 + 1 ∧ hist.headD (FVal.val 0) = FVal.nan)) :=
  ⟨by decide, by decide,
   C2_nonfinite_loss_propagates
     (fun (_ : Unit) (b : ℕ) => ((), if b = 0 then FVal.nan else FVal.val 1))
     () [1, 0] 0 (by decide) (by decide)⟩

/-- `DataLoader(dataset, batch_size=B)` with the default
`drop_last=False`: consecutive batches of `B` examples, the final batch
possibly smaller.  The epoch reshuffle permutes the examples but leaves
the batch count unchanged, which is all the batch-count claim uses. -/
def chunks {α : Type} (B : ℕ) (xs : List α) : List (List α) :=
  if h : B = 0 ∨ xs.isEmpty then []
  else xs.take B :: chunks B (xs.drop B)
termination_by xs.length
decreasing_by
  push_neg at h
  simp only [List.length_drop]
  have h2 : 0 < xs.length := by
    cases xs with
    | nil => exact absurd rfl h.2
    | cons _ _ => simp
  omega

theorem chunks_nil {α : Type} (B : ℕ) : chunks B ([] : List α) = [] := by
  rw [chunks]
  simp

theorem chunks_length {α : Type} {B : ℕ} (hB : 0 < B) (xs : List α) :
    (chunks B xs).length = (xs.length + B - 1) / B := by
  have H : ∀ (n : ℕ) (ys : List α), ys.length ≤ n →
      (chunks B ys).length = (ys.length + B - 1) / B := by
    intro n
    induction n with
    | zero =>
      intro ys hy
      have hnil : ys = [] := List.length_eq_zero.mp (Nat.le_zero.mp hy)
      subst hnil
      rw [chunks_nil]
      simp [Nat.div_eq_of_lt (show B - 1 < B by omega)]
    | succ n ih =>
      intro ys hy
      cases ys with
      | nil =>
        rw [chunks_nil]
        simp [Nat.div_eq_of_lt (show B - 1 < B by omega)]
      | cons y l =>
        rw [chunks, dif_neg (by push_neg; exact ⟨hB.ne', by simp⟩)]
        have hlen : ((y :: l).drop B).length = l.length + 1 - B := by
          rw [List.length_drop, List.length_cons]
        have hrec := ih ((y :: l).drop B) (by rw [hlen]; simp at hy; omega)
        rw [List.length_cons, hrec, hlen, List.length_cons]
        rcases le_or_lt (l.length + 1) B with hle | hlt
        · have e1 : l.length + 1 - B = 0 := by omega
          have e2 : l.length + 1 + B - 1 = l.length + B := by omega
          rw [e1, e2, Nat.add_div_right _ hB,
            Nat.div_eq_of_lt (show 0 + B - 1 < B by omega),
            Nat.div_eq_of_lt (show l.length < B by omega)]
        · have e1 : l.length + 1 - B + B - 1 = l.length := by omega
          have e2 : l.length + 1 + B - 1 = l.length + B := by omega
          rw [e1, e2, Nat.add_div_right _ hB]
  exact H xs.length xs le_rfl

theorem homogeneous_of_const {rows : List (List ℚ)} {c : ℕ}
    (h : ∀ r ∈ rows, r.length = c) : homogeneous rows = true := by
  cases rows with
  | nil => rfl
  | cons r t =>
    rw [homogeneous, List.all_eq_true]
    intro a ha
    have h1 := h a ha
    have h2 := h r (List.mem_cons_self r t)
    simp only [List.headD_cons]
    exact decide_eq_true (by rw [h1, h2])

theorem length_rawFrames_pair (m1 m2 : MotionData) :
    (rawFrames [m1, m2]).length = m1.frames.length + m2.frames.length := by
  simp [rawFrames]

/-- C9: two records of 60 frames and 8 bones (7 floats each) yield a
dataset of 120 examples of feature dimension 56; batch size 32 splits
one epoch into exactly `ceil(120/32) = 4` batches; and a one-epoch
training run appends exactly one train-loss scalar, the sum of the 4
batch losses divided by 4. -/
theorem C9_end_to_end_counts (m1 m2 : MotionData)
    (h1 : m1.frames.length = 60) (h2 : m2.frames.length = 60)
    (hb1 : ∀ fr ∈ m1.frames, fr.length = 8 ∧ ∀ bone ∈ fr, bone.length = 7)
    (hb2 : ∀ fr ∈ m2.frames, fr.length = 8 ∧ ∀ bone ∈ fr, bone.length = 7) :
    ∃ ds : MotionDataset, mkMotionDataset [m1, m2] true = Except.ok ds ∧
      ds.len = 120 ∧
      (∀ v ∈ ds.frames, v.length = 56) ∧
      (chunks 32 ds.frames).length = 4 ∧
      (∀ {σ : Type} (step : σ → List (List ℚ) → σ × FVal) (s : σ), ∃ s',
        trainF step s (chunks 32 ds.frames) 1 =
          Except.ok (s', [(totalLoss step s (chunks 32 ds.frames)).divNat 4])) := by
  set raw := rawFrames [m1, m2] with hraw
  have hrow : ∀ r ∈ raw, r.length = 56 := by
    intro r hr
    rw [hraw, rawFrames] at hr
    simp only [List.flatMap_cons, List.flatMap_nil, List.append_nil, List.mem_append,
      List.mem_map] at hr
    rcases hr with ⟨fr, hf, rfl⟩ | ⟨fr, hf, rfl⟩
    · obtain ⟨hc, hb⟩ := hb1 fr hf
      rw [flatten_length_of_bones fr hb, hc]
    · obtain ⟨hc, hb⟩ := hb2 fr hf
      rw [flatten_length_of_bones fr hb, hc]
  have hhom : homogeneous raw = true := homogeneous_of_const hrow
  have hlraw : raw.length = 120 := by
    rw [hraw, length_rawFrames_pair, h1, h2]
  set D := (raw.headD []).length with hD
  have hD56 : D = 56 := by
    rw [hD]
    refine hrow _ ?_
    cases hr : raw with
    | nil => rw [hr] at hlraw; simp at hlraw
    | cons a t => simp
  refine ⟨⟨raw.map (fun x => normalizeVec x (meanVec raw D) (stdVec raw D)),
      motionIndices [m1, m2], true, meanVec raw D, stdVec raw D⟩, ?_, ?_, ?_, ?_, ?_⟩
  · rw [mkMotionDataset]
    simp only [← hraw, hhom, if_true, ← hD]
  · rw [MotionDataset.len]
    simp [hlraw]
  · intro v hv
    simp only [List.mem_map] at hv
    obtain ⟨x, hx, rfl⟩ := hv
    rw [normalizeVec, vdiv, vsub]
    rw [List.length_zipWith, List.length_zipWith, hrow x hx, length_meanVec,
      length_stdVec, hD56]
    simp
  · rw [chunks_length (by omega)]
    simp only [List.length_map]
    rw [hlraw]
  · intro σ step s
    set batches :=
      chunks 32 (raw.map (fun x => normalizeVec x (meanVec raw D) (stdVec raw D)))
      with hbatches
    have hblen : batches.length = 4 := by
      rw [hbatches, chunks_length (by omega)]
      simp only [List.length_map]
      rw [hlraw]
    have hBne : batches.isEmpty = false := by
      cases hb : batches with
      | nil => rw [hb] at hblen; simp at hblen
      | cons _ _ => rfl
    refine ⟨runBatches step s batches, ?_⟩
    rw [trainF, trainLoop, trainEpochE, hBne]
    simp only [Bool.false_eq_true, if_false, hblen]
    rfl

/-- A concrete 60-frame, 8-bone motion (all-zero poses). -/
def wave60 : MotionData :=
  ⟨"wave", List.replicate 60 (List.replicate 8 (List.replicate 7 (0 : ℚ))),
   ["Armature.RightShoulder", "Armature.RightElbow", "Armature.RightWrist",
    "Armature.LeftShoulder", "Armature.LeftElbow", "Armature.LeftWrist",
    "Armature.Head", "Armature.Spine"], 30⟩

/-- A concrete 60-frame, 8-bone motion (all-one poses). -/
def spin60 : MotionData :=
  ⟨"spin", List.replicate 60 (List.replicate 8 (List.replicate 7 (1 : ℚ))),
   ["Armature.RightShoulder", "Armature.RightElbow", "Armature.RightWrist",
    "Armature.LeftShoulder", "Armature.LeftElbow", "Armature.LeftWrist",
    "Armature.Head", "Armature.Spine"], 30⟩

theorem C9_end_to_end_counts_witness :
    (wave60.frames.length = 60) ∧ (spin60.frames.length = 60) ∧
    (∀ fr ∈ wave60.frames, fr.length = 8 ∧ ∀ bone ∈ fr, bone.length = 7) ∧
    (∀ fr ∈ spin60.frames, fr.length = 8 ∧ ∀ bone ∈ fr, bone.length = 7) ∧
    (∃ ds : MotionDataset, mkMotionDataset [wave60, spin60] true = Except.ok ds ∧
      ds.len = 120 ∧
      (∀ v ∈ ds.frames, v.length = 56) ∧
      (chunks 32 ds.frames).length = 4 ∧
      (∀ {σ : Type} (step : σ → List (List ℚ) → σ × FVal) (s : σ), ∃ s',
        trainF step s (chunks 32 ds.frames) 1 =
          Except.ok (s', [(totalLoss step s (chunks 32 ds.frames)).divNat 4]))) :=
  ⟨by simp [wave60], by simp [spin60],
   fun fr hfr => by
     rw [List.eq_of_mem_replicate hfr]
     exact ⟨by simp, fun bone hb => by rw [List.eq_of_mem_replicate hb]; simp⟩,
   fun fr hfr => by
     rw [List.eq_of_mem_replicate hfr]
     exact ⟨by simp, fun bone hb => by rw [List.eq_of_mem_replicate hb]; simp⟩,
   C9_end_to_end_counts wave60 spin60 (by simp [wave60]) (by simp [spin60])
     (fun fr hfr => by
       rw [List.eq_of_mem_replicate hfr]
       exact ⟨by simp, fun bone hb => by rw [List.eq_of_mem_replicate hb]; simp⟩)
     (fun fr hfr => by
       rw [List.eq_of_mem_replicate hfr]
       exact ⟨by simp, fun bone hb => by rw [List.eq_of_mem_replicate hb]; simp⟩)⟩

/-- `TrainingConfig` hyperparameters (defaults as in the dataclass; the
compute target is not needed by any claim). -/
structure TrainingConfig where
  learning_rate : ℚ := 1 / 1000
  batch_size : ℕ := 32
  epochs : ℕ := 50
  hidden_dim : ℕ := 256
  latent_dim : ℕ := 128
  dropout : ℚ := 1 / 5
  checkpoint_interval : ℕ := 10
deriving DecidableEq

/-- `nn.Linear(in_features, out_features)`, by shape. -/
structure LinearM where
  in_features : ℕ
  out_features : ℕ
deriving DecidableEq

/-- One stage of an `nn.Sequential`. -/
inductive NNLayer
  | linear (l : LinearM)
  | relu
  | dropout (p : ℚ)
deriving DecidableEq

/-- `layer.out_features`, defined on linear layers (the only layers the
exporter indexes; positions 0 and -1 of the encoder are always linear). -/
def NNLayer.outFeatures : NNLayer → ℕ
  | .linear l => l.out_features
  | _ => 0

/-- The `nn.Sequential` built in `MotionEncoder.__init__`. -/
def encoderSeq (input_dim hidden_dim latent_dim : ℕ) (p : ℚ) : List NNLayer :=
  [.linear ⟨input_dim, hidden_dim⟩, .relu, .dropout p,
   .linear ⟨hidden_dim, hidden_dim⟩, .relu, .dropout p,
   .linear ⟨hidden_dim, latent_dim⟩]

/-- The `nn.Sequential` built in `MotionDecoder.__init__`. -/
def decoderSeq (latent_dim hidden_dim output_dim : ℕ) (p : ℚ) : List NNLayer :=
  [.linear ⟨latent_dim, hidden_dim⟩, .relu, .dropout p,
   .linear ⟨hidden_dim, hidden_dim⟩, .relu, .dropout p,
   .linear ⟨hidden_dim, output_dim⟩]

/-- `MotionAutoencoder` by layer shapes; `encoder` is the encoder's
inner `Sequential` (`model.encoder.encoder` in the source), `decoder`
the decoder's. -/
structure MotionAutoencoder where
  encoder : List NNLayer
  decoder : List NNLayer
deriving DecidableEq

/-- `MotionAutoencoder.__init__(motion_dim, config)`. -/
def mkMotionAutoencoder (motion_dim : ℕ) (config : TrainingConfig) : MotionAutoencoder :=
  ⟨encoderSeq motion_dim config.hidden_dim config.latent_dim config.dropout,
   decoderSeq config.latent_dim config.hidden_dim motion_dim config.dropout⟩

/-- The metadata document written by `save_trained_model`; the nested
config block is an association list in write order. -/
structure Metadata where
  motion_names : List String
  num_bones : ℕ
  bone_names : List String
  framerate : ℚ
  normalize_mean : List ℚ
  normalize_std : List ℚ
  config : List (String × ℕ)
deriving DecidableEq

/-- The metadata construction in `save_trained_model`: the config block
stores `dataset.mean.shape[0]` — the input feature dimension — under the
key `"learning_rate"` (the source comments the value as the input
dimension), and the hidden/latent widths read back from
`model.encoder.encoder[0].out_features` and
`model.encoder.encoder[-1].out_features`. -/
def saveMetadata (model : MotionAutoencoder) (dataset : MotionDataset)
    (motions : List MotionData) : Metadata where
  motion_names := motions.map (fun m => m.name)
  num_bones :=
    match motions with
    | [] => 0
    | m :: _ => m.bone_names.length
  bone_names :=
    match motions with
    | [] => []
    | m :: _ => m.bone_names
  framerate :=
    match motions with
    | [] => 30
    | m :: _ => m.framerate
  normalize_mean := dataset.mean
  normalize_std := dataset.std
  config :=
    [("learning_rate", dataset.mean.length),
     ("hidden_dim", (model.encoder.headD .relu).outFeatures),
     ("latent_dim", (model.encoder.getLastD .relu).outFeatures)]

/-- The config block the spec's words describe: "input dimension",
`hidden_dim`, `latent_dim`, each keyed by a name denoting what it
stores. -/
def specConfigBlock (input_dim hidden_dim latent_dim : ℕ) : List (String × ℕ) :=
  [("input_dim", input_dim), ("hidden_dim", hidden_dim), ("latent_dim", latent_dim)]

/-- A concrete dataset value with feature dimension 56, as handed to the
exporter. -/
def dsFeature56 : MotionDataset :=
  ⟨[], [], true, List.replicate 56 0, List.replicate 56 1⟩

/-- C3: the config block's three values are indeed the input dimension
and the hidden/latent widths read back from the trained network's layer
shapes, but the input dimension is written under the key
`"learning_rate"` — contradicting the code's own `# Input dimension`
comment — so at the concrete failing input (feature dimension 56,
hidden 256, latent 128) the block differs from the spec-described,
properly keyed block. -/
theorem C3_config_block_mislabeled_key :
    (∀ (dim : ℕ) (cfg : TrainingConfig) (ds : MotionDataset) (ms : List MotionData),
      (saveMetadata (mkMotionAutoencoder dim cfg) ds ms).config =
        [("learning_rate", ds.mean.length),
         ("hidden_dim", cfg.hidden_dim),
         ("latent_dim", cfg.latent_dim)]) ∧
    ((saveMetadata (mkMotionAutoencoder 56 {}) dsFeature56 [wave60, spin60]).config =
      [("learning_rate", 56), ("hidden_dim", 256), ("latent_dim", 128)]) ∧
    ((saveMetadata (mkMotionAutoencoder 56 {}) dsFeature56 [wave60, spin60]).config ≠
      specConfigBlock 56 256 128) := by
  refine ⟨fun dim cfg ds ms => rfl, by decide, by decide⟩

/-- A parsed motion JSON document with the file schema's optional
fields (`data.get` defaults apply to `bone_names` and `framerate`; a
missing `name` or `frames` raises `KeyError` inside the per-file
`try`). -/
structure MotionDoc where
  name : Option String
  frames : Option (List (List (List ℚ)))
  bone_names : Option (List String)
  framerate : Option ℚ

/-- The body of the per-file `try` in `load_motion_data`: `json.load`
may itself fail (already an `Except.error`, covering any parse error),
then `data['name']` and `data['frames']` raise `KeyError` when missing,
while `bone_names` and `framerate` fall back to `[]` and `30.0`. -/
def parseMotionFile (contents : Except String MotionDoc) : Except String MotionData :=
  match contents with
  | .error e => .error e
  | .ok doc =>
    match doc.name with
    | none => .error "KeyError: name"
    | some n =>
      match doc.frames with
      | none => .error "KeyError: frames"
      | some fr => .ok ⟨n, fr, doc.bone_names.getD [], doc.framerate.getD 30⟩

/-- `sorted(data_dir.glob("*.json"))`: keep the `.json` files and sort
them by filename. -/
def globSortedJson (files : List (String × Except String MotionDoc)) :
    List (String × Except String MotionDoc) :=
  (files.filter (fun f => f.1.endsWith ".json")).mergeSort (fun a b => a.1 ≤ b.1)

/-- `load_motion_data`: a nonexistent directory (`none`) yields the empty
list; otherwise iterate the sorted `*.json` files, appending each
successfully parsed record and skipping (after logging) each failed
one. -/
def load_motion_data (dir : Option (List (String × Except String MotionDoc))) :
    List MotionData :=
  match dir with
  | none => []
  | some files =>
    (globSortedJson files).foldl
      (fun acc f =>
        match parseMotionFile f.2 with
        | .ok m => acc ++ [m]
        | .error _ => acc) []

theorem foldl_parse_eq_filterMap (fs : List (String × Except String MotionDoc))
    (acc : List MotionData) :
    fs.foldl
        (fun acc f =>
          match parseMotionFile f.2 with
          | .ok m => acc ++ [m]
          | .error _ => acc) acc =
      acc ++ fs.filterMap (fun f => (parseMotionFile f.2).toOption) := by
  induction fs generalizing acc with
  | nil => simp
  | cons f fs ih =>
    rw [List.foldl_cons, List.filterMap_cons]
    cases h : parseMotionFile f.2 with
    | error e => simp only [h, Except.toOption, ih]
    | ok m =>
      simp only [h, Except.toOption, ih]
      simp

/-- C8: ingestion of a nonexistent directory returns the empty list (it
is a total function — no raise); ingestion of an existing directory
returns exactly the successfully parsed records of the `*.json` files
in sorted filename order, skipping every file whose parse fails, so a
single bad file never aborts the run. -/
theorem C8_ingestion_total_sorted_skips :
    load_motion_data none = [] ∧
    (∀ files, load_motion_data (some files) =
      (globSortedJson files).filterMap (fun f => (parseMotionFile f.2).toOption)) := by
  refine ⟨rfl, fun files => ?_⟩
  rw [load_motion_data, foldl_parse_eq_filterMap]
  simp
